import Mathlib

/-!
Verification of the data-normalization and weighted-draw pipeline of the
gacha simulator (`src/app.py`).

The embedding models:
* parsed JSON values (`JValue`) — the result of `json.loads`; an input of
  `none` at the `load_json_data` boundary models raw text that is not
  valid JSON;
* Python's `str`/`int` coercions on JSON values (`pyStr`, `pyInt`);
* `load_json_data` (src/app.py lines 30-94), split into the per-item step
  `normalizeItem`, the per-category item loop `validItemsAux`/`validItems`
  and the category loop `loadCategories`;
* `random.choices` specialised to the call site (`choicesPy`, `pickIdx`),
  with the pseudorandom source made explicit as a stream `rand : Nat → Nat`
  whose value at each position is reduced modulo the total weight — the
  integer rendering of `bisect(cum_weights, random() * total)`;
* `generate_category_drops` (src/app.py lines 97-142), and a
  state-passing variant `generate_category_drops_st` in which the catalog
  is threaded explicitly as mutable state, used to express the frame
  property that the catalog is unchanged by a draw.
-/

/-- A float produced by `json.loads`, carrying the attributes the pipeline
inspects: its integer truncation when finite (what `int()` returns), or
the non-finite class — `int()` raises `OverflowError` on the infinities
(e.g. the valid JSON literals `1e400` and `Infinity`) and `ValueError` on
`NaN`. -/
inductive JFloat where
  | finite : Int → JFloat
  | posInf : JFloat
  | negInf : JFloat
  | nan : JFloat
deriving Repr, DecidableEq

/-- A parsed JSON value, as produced by `json.loads`. Integer literals are
`num`; float literals (including the out-of-range and `Infinity`/`NaN`
forms `json.loads` accepts) are `fnum`; object key lists are the
key/value pairs of the parsed dict, whose keys `json.loads` makes unique. -/
inductive JValue where
  | null : JValue
  | bool : Bool → JValue
  | num : Int → JValue
  | fnum : JFloat → JValue
  | str : String → JValue
  | arr : List JValue → JValue
  | obj : List (String × JValue) → JValue

mutual

/-- Python `repr` of a JSON value, used by `str` inside containers. -/
def pyRepr : JValue → String
  | JValue.null => "None"
  | JValue.bool true => "True"
  | JValue.bool false => "False"
  | JValue.num n => toString n
  | JValue.fnum (JFloat.finite t) => toString t
  | JValue.fnum JFloat.posInf => "inf"
  | JValue.fnum JFloat.negInf => "-inf"
  | JValue.fnum JFloat.nan => "nan"
  | JValue.str s => "\x27" ++ s ++ "\x27"
  | JValue.arr xs => "[" ++ String.intercalate ", " (pyReprList xs) ++ "]"
  | JValue.obj kvs => "\x7b" ++ String.intercalate ", " (pyReprObj kvs) ++ "\x7d"

/-- `repr` of each element of a JSON array. -/
def pyReprList : List JValue → List String
  | [] => []
  | v :: vs => pyRepr v :: pyReprList vs

/-- `repr` of each key/value pair of a JSON object. -/
def pyReprObj : List (String × JValue) → List String
  | [] => []
  | (k, v) :: kvs => ("\x27" ++ k ++ "\x27: " ++ pyRepr v) :: pyReprObj kvs

end

/-- Python `str(x)`: a string is returned as itself, anything else via its
`repr`-style rendering. Total — `str` never raises on these values. -/
def pyStr : JValue → String
  | JValue.str s => s
  | v => pyRepr v

/-- Outcome of Python `int(x)` on a JSON value: a successful coercion, an
exception the per-item handler at src/app.py line 72 catches
(`ValueError`/`TypeError`), or an exception it does not catch
(`OverflowError`, raised on infinite floats), which escapes to the outer
handler at line 92 and aborts the whole parse. -/
inductive PyIntResult where
  | ok : Int → PyIntResult
  | caught : PyIntResult
  | uncaught : PyIntResult
deriving Repr, DecidableEq

/-- Python `int(x)`: `int` of a finite float truncates, of an infinite
float raises `OverflowError` (uncaught at line 72), of `NaN` raises
`ValueError` (caught); `int` of `None`, lists and dicts raises
`TypeError`, of a non-numeric string `ValueError` (both caught). -/
def pyInt : JValue → PyIntResult
  | JValue.null => PyIntResult.caught
  | JValue.bool b => PyIntResult.ok (if b then 1 else 0)
  | JValue.num n => PyIntResult.ok n
  | JValue.fnum (JFloat.finite t) => PyIntResult.ok t
  | JValue.fnum JFloat.posInf => PyIntResult.uncaught
  | JValue.fnum JFloat.negInf => PyIntResult.uncaught
  | JValue.fnum JFloat.nan => PyIntResult.caught
  | JValue.str s =>
    match s.trim.toInt? with
    | some n => PyIntResult.ok n
    | none => PyIntResult.caught
  | JValue.arr _ => PyIntResult.caught
  | JValue.obj _ => PyIntResult.caught

/-- A normalized catalog record as built at src/app.py lines 66-71:
`{name, image, rarity, weight}`. -/
structure Item where
  name : String
  image : String
  rarity : Int
  weight : Int
deriving Repr, DecidableEq

/-- Default record used for guarded list indexing in the embedding. -/
def dItem : Item := ⟨"", "", 0, 0⟩

/-- Outcome of the item-loop body of `load_json_data` (src/app.py
lines 51-74) on one item: the record is kept (lines 66-71), the item is
skipped via one of the two `continue` paths (not a dict at line 53, or a
caught coercion error at line 72), or an uncaught exception is raised
(an `OverflowError` from `int` of an infinite rarity), which kills the
whole parse via the handler at line 92. -/
inductive ItemResult where
  | keep : Item → ItemResult
  | skip : ItemResult
  | fatal : ItemResult
deriving Repr, DecidableEq

/-- One iteration of the item loop of `load_json_data`
(src/app.py lines 51-74) on the item at zero-based index `i`:
`name` defaults to `f'Элемент {i+1}'`, `image` to `''`, `rarity`
defaults to `3`, is coerced by `int` and clamped into `[1, 3]`, and
`weight` is set to the clamped rarity. -/
def normalizeItem (category : String) (i : Nat) (item : JValue) : ItemResult :=
  match item with
  | JValue.obj kvs =>
    let name := pyStr ((kvs.lookup "name").getD (JValue.str ("Элемент " ++ toString (i + 1))))
    let image := pyStr ((kvs.lookup "image").getD (JValue.str ""))
    match pyInt ((kvs.lookup "rarity").getD (JValue.num 3)) with
    | PyIntResult.ok r => ItemResult.keep ⟨name, image, max 1 (min 3 r), max 1 (min 3 r)⟩
    | PyIntResult.caught => ItemResult.skip
    | PyIntResult.uncaught => ItemResult.fatal
  | _ => ItemResult.skip

/-- The item loop `for i, item in enumerate(items)` of `load_json_data`
(src/app.py lines 50-74), accumulating `valid_items`; `n` is the index of
the first item of the remaining list. `none` models an uncaught exception
raised inside the loop, which abandons the category and the parse. -/
def validItemsAux (cat : String) : Nat → List JValue → Option (List Item)
  | _, [] => some []
  | i, v :: rest =>
    match normalizeItem cat i v with
    | ItemResult.keep it => (validItemsAux cat (i + 1) rest).map (fun b => it :: b)
    | ItemResult.skip => validItemsAux cat (i + 1) rest
    | ItemResult.fatal => none

/-- The `valid_items` list a category's item list produces (or `none` when
an uncaught exception is raised while producing it). -/
def validItems (cat : String) (items : List JValue) : Option (List Item) :=
  validItemsAux cat 0 items

/-- The category loop of `load_json_data` (src/app.py lines 44-80):
a category whose value is not a list aborts the parse (`return None`,
line 47); an uncaught exception from the item loop aborts the parse
(via line 92); a category with no valid items is dropped with a warning
(line 80); otherwise its valid items are recorded in order. -/
def loadCategories : List (String × JValue) → Option (List (String × List Item))
  | [] => some []
  | (cat, JValue.arr items) :: rest =>
    match validItems cat items with
    | none => none
    | some valid =>
      match loadCategories rest with
      | none => none
      | some cds => some (if valid.isEmpty then cds else (cat, valid) :: cds)
  | _ :: _ => none

/-- `load_json_data` (src/app.py lines 30-94) after `json.loads`: the
argument `none` models raw text that is not valid JSON (the
`json.JSONDecodeError` branch, line 89); a non-object top level is
rejected (line 36); an empty `categories_data` at the end is rejected
(line 86). -/
def load_json_data (parsed : Option JValue) : Option (List (String × List Item)) :=
  match parsed with
  | none => none
  | some (JValue.obj kvs) =>
    match loadCategories kvs with
    | none => none
    | some cds => if cds.isEmpty then none else some cds
  | some _ => none

/-- A drop as handed to the UI (src/app.py lines 129-133): the `weight`
field is stripped, `name`, `image` and `rarity` are kept. -/
structure DisplayItem where
  name : String
  image : String
  rarity : Int
deriving Repr, DecidableEq

/-- The `display_item` built from a drawn record (src/app.py lines 127-133);
`items[idx].copy()` copies the record, so the display entry shares nothing
with the catalog. -/
def displayOf (item : Item) : DisplayItem :=
  ⟨item.name, item.image, item.rarity⟩

/-- `weights = [item['weight'] for item in items]` (src/app.py line 114):
the weight list handed to the weighted-choice primitive. -/
def weightsOf (items : List Item) : List Int :=
  items.map (fun it => it.weight)

/-- `category_counts.get(category, 0)` (src/app.py line 107): a category
missing from the mapping requests 0 drops. -/
def countsGet (cc : List (String × Int)) (cat : String) : Int :=
  (cc.lookup cat).getD 0

/-- One weighted pick: `bisect(cum_weights, x)` on the cumulative weight
list, for a draw value `r` in `[0, total)` — the index of the first
cumulative sum exceeding `r`. -/
def pickIdx : List Int → Int → Nat
  | [], _ => 0
  | w :: ws, r => if r < w then 0 else pickIdx ws (r - w) + 1

/-- `random.choices(population, weights=weights, k=k)` at the call site of
src/app.py lines 118-122, drawing its randomness from the stream `rand`
starting at position `pos` (each draw value reduced modulo the total
weight). `none` models the exceptions `random.choices` raises: weight list
and population of different lengths, empty population, non-positive total
weight, or a pick falling outside the population. -/
def choicesPy (population : List Nat) (weights : List Int) (k : Nat)
    (rand : Nat → Nat) (pos : Nat) : Option (List Nat) :=
  if weights.length ≠ population.length then none
  else if population.isEmpty then none
  else
    let total := weights.sum
    if total ≤ 0 then none
    else
      let idxs := (List.range k).map fun j => pickIdx weights ((rand (pos + j) : Int) % total)
      if idxs.any fun i => population.length ≤ i then none
      else some (idxs.map fun i => population.getD i 0)

/-- The category loop of `generate_category_drops` (src/app.py
lines 105-136): `pos` is the position reached in the random stream;
`none` models an exception escaping the loop body into the handler at
line 140. -/
def genGo (rand : Nat → Nat) (cc : List (String × Int)) :
    List (String × List Item) → Nat → Option (List (String × List DisplayItem))
  | [], _ => some []
  | pr :: rest, pos =>
    let num_drops := countsGet cc pr.1
    if num_drops ≤ 0 ∨ pr.2.isEmpty then
      (genGo rand cc rest pos).map (fun t => (pr.1, []) :: t)
    else
      let weights := weightsOf pr.2
      let indices := List.range pr.2.length
      let k := num_drops.toNat
      match choicesPy indices weights k rand pos with
      | none => none
      | some sel =>
        let category_results := sel.map fun idx => displayOf (pr.2.getD idx dItem)
        (genGo rand cc rest (pos + k)).map (fun t => (pr.1, category_results) :: t)

/-- `generate_category_drops` (src/app.py lines 97-142): empty catalog
returns the empty mapping (line 100); an exception during generation is
caught and the empty mapping returned (lines 140-142). -/
def generate_category_drops (categories_data : List (String × List Item))
    (category_counts : List (String × Int)) (rand : Nat → Nat) :
    List (String × List DisplayItem) :=
  if categories_data.isEmpty then []
  else
    match genGo rand category_counts categories_data 0 with
    | some results => results
    | none => []

/-- The category loop of `generate_category_drops` with the catalog
threaded as explicit mutable state: every access to the catalog reads the
current store (the loop over `n` remaining categories reads entry `i`),
and the final store is returned alongside the result. The source loop
contains no store write, and the embedding mirrors it statement by
statement. -/
def genGoSt (rand : Nat → Nat) (cc : List (String × Int)) :
    Nat → Nat → Nat → List (String × List Item) →
    Option (List (String × List DisplayItem)) × List (String × List Item)
  | 0, _, _, store => (some [], store)
  | n + 1, i, pos, store =>
    let pr := store.getD i ("", [])
    let num_drops := countsGet cc pr.1
    if num_drops ≤ 0 ∨ pr.2.isEmpty then
      match genGoSt rand cc n (i + 1) pos store with
      | (r, store2) => (r.map (fun t => (pr.1, []) :: t), store2)
    else
      let weights := weightsOf pr.2
      let indices := List.range pr.2.length
      let k := num_drops.toNat
      match choicesPy indices weights k rand pos with
      | none => (none, store)
      | some sel =>
        let category_results := sel.map fun idx => displayOf (pr.2.getD idx dItem)
        match genGoSt rand cc n (i + 1) (pos + k) store with
        | (r, store2) => (r.map (fun t => (pr.1, category_results) :: t), store2)

/-- `generate_category_drops` in the state-passing embedding: takes the
catalog store and returns the result together with the store after the
call. -/
def generate_category_drops_st (category_counts : List (String × Int))
    (rand : Nat → Nat) (store : List (String × List Item)) :
    List (String × List DisplayItem) × List (String × List Item) :=
  if store.isEmpty then ([], store)
  else
    match genGoSt rand category_counts store.length 0 0 store with
    | (some results, store2) => (results, store2)
    | (none, store2) => ([], store2)

/-- Whether a JSON value is an array (a Python `list`). -/
def isArr : JValue → Bool
  | JValue.arr _ => true
  | _ => false

/-- The valid items a category's raw value yields: the item loop's output
for a list, and no items otherwise. -/
def validItemsOfVal (cat : String) (v : JValue) : List Item :=
  match v with
  | JValue.arr items => (validItems cat items).getD []
  | _ => []

/-- Whether producing the category's valid items raises an exception the
per-item handler does not catch. -/
def categoryFatal (cat : String) (v : JValue) : Bool :=
  match v with
  | JValue.arr items => (validItems cat items).isNone
  | _ => false

/-- Failure condition of the normalizer as the amended claim states it:
the raw text is not valid JSON, the top-level value is not a mapping,
some category's value is not a list, some item's rarity coercion raises
an error the per-item handler does not catch (`OverflowError` on an
infinite float), or every category ends up with zero valid items. Stated
from the claim's words, to be compared with `load_json_data`. -/
def jsonLoadFails : Option JValue → Bool
  | none => true
  | some (JValue.obj kvs) =>
    (kvs.any fun pr => !(isArr pr.2)) ||
    (kvs.any fun pr => categoryFatal pr.1 pr.2) ||
    (kvs.all fun pr => (validItemsOfVal pr.1 pr.2).isEmpty)
  | some _ => true

/-! ## Basic facts about the per-item normalization step -/

lemma normalizeItem_keep {cat : String} {i : Nat} {v : JValue} {it : Item}
    (h : normalizeItem cat i v = ItemResult.keep it) :
    1 ≤ it.rarity ∧ it.rarity ≤ 3 ∧ it.weight = it.rarity := by
  cases v with
  | obj kvs =>
    simp only [normalizeItem] at h
    split at h
    · rw [ItemResult.keep.injEq] at h
      subst h
      refine ⟨?_, ?_, rfl⟩ <;> simp
    · exact absurd h (by simp)
    · exact absurd h (by simp)
  | null => exact absurd h (by simp [normalizeItem])
  | bool b => exact absurd h (by simp [normalizeItem])
  | num n => exact absurd h (by simp [normalizeItem])
  | fnum f => exact absurd h (by simp [normalizeItem])
  | str s => exact absurd h (by simp [normalizeItem])
  | arr xs => exact absurd h (by simp [normalizeItem])

lemma validItemsAux_mem (cat : String) :
    ∀ (items : List JValue) (n : Nat) (l : List Item), validItemsAux cat n items = some l →
      ∀ it ∈ l, ∃ i v, normalizeItem cat i v = ItemResult.keep it := by
  intro items
  induction items with
  | nil =>
    intro n l h it hit
    rw [validItemsAux, Option.some_inj] at h
    subst h
    simp at hit
  | cons v rest ih =>
    intro n l h it hit
    rcases hnv : normalizeItem cat n v with it2 | _ | _
    · rw [validItemsAux, hnv] at h
      obtain ⟨l2, hl2, hcons⟩ := Option.map_eq_some'.mp h
      subst hcons
      rcases List.mem_cons.mp hit with h1 | h2
      · exact ⟨n, v, by rw [← h1] at hnv; exact hnv⟩
      · exact ih (n + 1) l2 hl2 it h2
    · rw [validItemsAux, hnv] at h
      exact ih (n + 1) l h it hit
    · rw [validItemsAux, hnv] at h
      exact absurd h (by simp)

lemma loadCategories_mem :
    ∀ (kvs : List (String × JValue)) (cds : List (String × List Item)),
      loadCategories kvs = some cds →
      ∀ pr ∈ cds, ∃ cat items l, pr = (cat, l) ∧ validItems cat items = some l ∧ l ≠ [] := by
  intro kvs
  induction kvs with
  | nil =>
    intro cds h pr hpr
    rw [loadCategories, Option.some_inj] at h
    subst h
    simp at hpr
  | cons kv rest ih =>
    intro cds h pr hpr
    obtain ⟨cat, v⟩ := kv
    cases v with
    | arr items =>
      rcases hvi : validItems cat items with _ | valid
      · rw [loadCategories, hvi] at h
        exact absurd h (by simp)
      · rw [loadCategories, hvi] at h
        dsimp only at h
        rcases hrest : loadCategories rest with _ | cds2
        · rw [hrest] at h
          exact absurd h (by simp)
        · rw [hrest] at h
          dsimp only at h
          rw [Option.some_inj] at h
          subst h
          by_cases he : valid.isEmpty
          · rw [if_pos he] at hpr
            exact ih cds2 hrest pr hpr
          · rw [if_neg he] at hpr
            rcases List.mem_cons.mp hpr with h1 | h2
            · exact ⟨cat, items, valid, h1, hvi, by simpa using he⟩
            · exact ih cds2 hrest pr h2
    | null => exact absurd h (by simp [loadCategories])
    | bool b => exact absurd h (by simp [loadCategories])
    | num n => exact absurd h (by simp [loadCategories])
    | fnum f => exact absurd h (by simp [loadCategories])
    | str s => exact absurd h (by simp [loadCategories])
    | obj kvs2 => exact absurd h (by simp [loadCategories])

lemma load_json_data_shape {p : Option JValue} {cd : List (String × List Item)}
    (h : load_json_data p = some cd) :
    ∃ kvs, p = some (JValue.obj kvs) ∧ loadCategories kvs = some cd ∧ cd ≠ [] := by
  match p with
  | none => exact absurd h (by simp [load_json_data])
  | some (JValue.obj kvs) =>
    refine ⟨kvs, rfl, ?_⟩
    rcases hl : loadCategories kvs with _ | cds
    · rw [load_json_data, hl] at h
      exact absurd h (by simp)
    · rw [load_json_data, hl] at h
      dsimp only at h
      by_cases he : cds.isEmpty
      · rw [if_pos he] at h
        exact absurd h (by simp)
      · rw [if_neg he] at h
        rw [Option.some_inj] at h
        subst h
        exact ⟨rfl, by simpa using he⟩
  | some JValue.null => exact absurd h (by simp [load_json_data])
  | some (JValue.bool b) => exact absurd h (by simp [load_json_data])
  | some (JValue.num n) => exact absurd h (by simp [load_json_data])
  | some (JValue.fnum f) => exact absurd h (by simp [load_json_data])
  | some (JValue.str s) => exact absurd h (by simp [load_json_data])
  | some (JValue.arr xs) => exact absurd h (by simp [load_json_data])

lemma load_json_data_item {p : Option JValue} {cd : List (String × List Item)}
    (h : load_json_data p = some cd) :
    ∀ pr ∈ cd, ∀ it ∈ pr.2, ∃ cat i v, normalizeItem cat i v = ItemResult.keep it := by
  intro pr hpr it hit
  obtain ⟨kvs, _, hl, _⟩ := load_json_data_shape h
  obtain ⟨cat, items, l, hpr2, hvi, _⟩ := loadCategories_mem kvs cd hl pr hpr
  have hit2 : it ∈ l := by rw [hpr2] at hit; exact hit
  obtain ⟨i, v, hv⟩ := validItemsAux_mem cat items 0 l hvi it hit2
  exact ⟨cat, i, v, hv⟩

lemma validItemsAux_append (cat : String) :
    ∀ (pre : List JValue) (n : Nat) (v : JValue) (post : List JValue),
      normalizeItem cat (n + pre.length) v = ItemResult.skip →
      validItemsAux cat n (pre ++ v :: post) =
        (validItemsAux cat n pre).bind
          (fun a => (validItemsAux cat (n + pre.length + 1) post).map (fun b => a ++ b)) := by
  intro pre
  induction pre with
  | nil =>
    intro n v post h
    simp only [List.length_nil, Nat.add_zero] at h
    rw [List.nil_append]
    simp only [validItemsAux, h, List.length_nil, Nat.add_zero, Option.some_bind]
    rcases validItemsAux cat (n + 1) post with _ | b <;> simp
  | cons u pre ih =>
    intro n v post h
    have h2 : normalizeItem cat ((n + 1) + pre.length) v = ItemResult.skip := by
      have e : (n + 1) + pre.length = n + (u :: pre).length := by simp; omega
      rw [e]
      exact h
    have harith : n + (u :: pre).length + 1 = (n + 1) + pre.length + 1 := by simp; omega
    rw [harith]
    rcases hnu : normalizeItem cat n u with it | _ | _
    · simp only [List.cons_append, validItemsAux, hnu, List.append_eq]
      rw [ih (n + 1) v post h2]
      rcases validItemsAux cat (n + 1) pre with _ | a
      · simp
      · rcases validItemsAux cat ((n + 1) + pre.length + 1) post with _ | b
        · simp
        · simp
    · simp only [List.cons_append, validItemsAux, hnu, List.append_eq]
      exact ih (n + 1) v post h2
    · simp only [List.cons_append, validItemsAux, hnu, List.append_eq]
      rfl

lemma validItemsAux_fatal (cat : String) :
    ∀ (pre : List JValue) (n : Nat) (v : JValue) (post : List JValue),
      normalizeItem cat (n + pre.length) v = ItemResult.fatal →
      validItemsAux cat n (pre ++ v :: post) = none := by
  intro pre
  induction pre with
  | nil =>
    intro n v post h
    simp only [List.length_nil, Nat.add_zero] at h
    rw [List.nil_append, validItemsAux, h]
  | cons u pre ih =>
    intro n v post h
    have h2 : normalizeItem cat ((n + 1) + pre.length) v = ItemResult.fatal := by
      have e : (n + 1) + pre.length = n + (u :: pre).length := by simp; omega
      rw [e]
      exact h
    rcases hnu : normalizeItem cat n u with it | _ | _
    · simp only [List.cons_append, validItemsAux, hnu, List.append_eq]
      rw [ih (n + 1) v post h2]
      rfl
    · simp only [List.cons_append, validItemsAux, hnu, List.append_eq]
      exact ih (n + 1) v post h2
    · simp only [List.cons_append, validItemsAux, hnu, List.append_eq]

lemma loadCategories_fatal :
    ∀ (kvs : List (String × JValue)) (cat : String) (items : List JValue),
      (cat, JValue.arr items) ∈ kvs → validItems cat items = none →
      loadCategories kvs = none := by
  intro kvs
  induction kvs with
  | nil =>
    intro cat items hmem _
    simp at hmem
  | cons kv rest ih =>
    intro cat items hmem hfat
    rcases List.mem_cons.mp hmem with h1 | h2
    · subst h1
      rw [loadCategories, hfat]
    · obtain ⟨cat2, v⟩ := kv
      cases v with
      | arr items2 =>
        rcases hvi : validItems cat2 items2 with _ | valid
        · rw [loadCategories, hvi]
        · rw [loadCategories, hvi]
          dsimp only
          rw [ih cat items h2 hfat]
      | null => simp [loadCategories]
      | bool b => simp [loadCategories]
      | num n => simp [loadCategories]
      | fnum f => simp [loadCategories]
      | str s => simp [loadCategories]
      | obj kvs2 => simp [loadCategories]

lemma loadCategories_none_iff :
    ∀ (kvs : List (String × JValue)),
      loadCategories kvs = none ↔
        ∃ pr ∈ kvs, isArr pr.2 = false ∨ categoryFatal pr.1 pr.2 = true := by
  intro kvs
  induction kvs with
  | nil => simp [loadCategories]
  | cons kv rest ih =>
    obtain ⟨cat, v⟩ := kv
    cases v with
    | arr items =>
      rcases hvi : validItems cat items with _ | valid
      · rw [loadCategories, hvi]
        refine iff_of_true rfl ?_
        exact ⟨(cat, JValue.arr items), List.mem_cons_self _ _,
          Or.inr (by simp [categoryFatal, hvi])⟩
      · rw [loadCategories, hvi]
        dsimp only
        rcases hrest : loadCategories rest with _ | cds
        · refine iff_of_true rfl ?_
          obtain ⟨pr, hpr, hbad⟩ := ih.mp hrest
          exact ⟨pr, List.mem_cons_of_mem _ hpr, hbad⟩
        · refine iff_of_false (by simp) ?_
          rintro ⟨pr, hpr, hbad⟩
          rcases List.mem_cons.mp hpr with h1 | h2
          · rcases hbad with hb | hb
            · rw [h1] at hb
              simp [isArr] at hb
            · rw [h1] at hb
              simp [categoryFatal, hvi] at hb
          · have := ih.mpr ⟨pr, h2, hbad⟩
            rw [hrest] at this
            exact absurd this (by simp)
    | null =>
      refine iff_of_true (by simp [loadCategories]) ?_
      exact ⟨(cat, JValue.null), List.mem_cons_self _ _, Or.inl rfl⟩
    | bool b =>
      refine iff_of_true (by simp [loadCategories]) ?_
      exact ⟨(cat, JValue.bool b), List.mem_cons_self _ _, Or.inl rfl⟩
    | num n =>
      refine iff_of_true (by simp [loadCategories]) ?_
      exact ⟨(cat, JValue.num n), List.mem_cons_self _ _, Or.inl rfl⟩
    | fnum f =>
      refine iff_of_true (by simp [loadCategories]) ?_
      exact ⟨(cat, JValue.fnum f), List.mem_cons_self _ _, Or.inl rfl⟩
    | str s =>
      refine iff_of_true (by simp [loadCategories]) ?_
      exact ⟨(cat, JValue.str s), List.mem_cons_self _ _, Or.inl rfl⟩
    | obj kvs2 =>
      refine iff_of_true (by simp [loadCategories]) ?_
      exact ⟨(cat, JValue.obj kvs2), List.mem_cons_self _ _, Or.inl rfl⟩

lemma loadCategories_some_nil_iff :
    ∀ (kvs : List (String × JValue)) (cds : List (String × List Item)),
      loadCategories kvs = some cds →
      (cds = [] ↔ ∀ pr ∈ kvs, (validItemsOfVal pr.1 pr.2).isEmpty = true) := by
  intro kvs
  induction kvs with
  | nil =>
    intro cds h
    rw [loadCategories, Option.some_inj] at h
    subst h
    simp
  | cons kv rest ih =>
    intro cds h
    obtain ⟨cat, v⟩ := kv
    cases v with
    | arr items =>
      rcases hvi : validItems cat items with _ | valid
      · rw [loadCategories, hvi] at h
        exact absurd h (by simp)
      · rw [loadCategories, hvi] at h
        dsimp only at h
        rcases hrest : loadCategories rest with _ | cds2
        · rw [hrest] at h
          exact absurd h (by simp)
        · rw [hrest] at h
          dsimp only at h
          rw [Option.some_inj] at h
          subst h
          by_cases he : valid.isEmpty
          · rw [if_pos he, ih cds2 hrest]
            constructor
            · intro hall pr hpr
              rcases List.mem_cons.mp hpr with h1 | h2
              · rw [h1]
                simp only [validItemsOfVal, hvi, Option.getD_some]
                exact he
              · exact hall pr h2
            · intro hall pr hpr
              exact hall pr (List.mem_cons_of_mem _ hpr)
          · rw [if_neg he]
            refine iff_of_false (by simp) ?_
            intro hall
            have := hall (cat, JValue.arr items) (List.mem_cons_self _ _)
            simp only [validItemsOfVal, hvi, Option.getD_some] at this
            exact absurd this he
    | null => exact absurd h (by simp [loadCategories])
    | bool b => exact absurd h (by simp [loadCategories])
    | num n => exact absurd h (by simp [loadCategories])
    | fnum f => exact absurd h (by simp [loadCategories])
    | str s => exact absurd h (by simp [loadCategories])
    | obj kvs2 => exact absurd h (by simp [loadCategories])

/-! ## Claim theorems about the JSON normalizer -/

/-- C2 counterexample, two inputs outside the claim's three failure cases
on which the normalizer nevertheless fails. First, `{"a": 5, "b": [{}]}`:
valid JSON, mapping at top level, and category `"b"` has a valid item —
yet `load_json_data` fails because category `"a"`'s value is not a list
(src/app.py line 47). Second, `{"a": [{"rarity": 1e400}], "b": [{}]}`:
valid JSON, mapping at top level, every category's value a list, `"b"`
non-empty — yet the infinite-float rarity makes `int` raise an
`OverflowError` that the per-item handler does not catch, aborting the
parse at line 92. -/
theorem load_json_three_cases_cex :
    (load_json_data (some (JValue.obj [("a", JValue.num 5), ("b", JValue.arr [JValue.obj []])]))
        = none ∧
      validItems "b" [JValue.obj []] = some [⟨"Элемент 1", "", 3, 3⟩]) ∧
    load_json_data (some (JValue.obj
        [("a", JValue.arr [JValue.obj [("rarity", JValue.fnum JFloat.posInf)]]),
         ("b", JValue.arr [JValue.obj []])])) = none := by
  exact ⟨⟨by decide, by decide⟩, by decide⟩

/-- C2 (amended): the JSON normalizer fails — returns no catalog — in
exactly five cases: the raw text is not valid JSON, the top-level value
is not a mapping, some category's value is not a list, some item's
rarity coercion raises an error the per-item handler does not catch (an
`OverflowError` from an infinite float), or every category ends up with
zero valid items; for every other input it produces a catalog. -/
theorem load_json_fails_iff :
    ∀ (p : Option JValue), load_json_data p = none ↔ jsonLoadFails p = true := by
  intro p
  match p with
  | none => simp [load_json_data, jsonLoadFails]
  | some JValue.null => simp [load_json_data, jsonLoadFails]
  | some (JValue.bool b) => simp [load_json_data, jsonLoadFails]
  | some (JValue.num n) => simp [load_json_data, jsonLoadFails]
  | some (JValue.fnum f) => simp [load_json_data, jsonLoadFails]
  | some (JValue.str s) => simp [load_json_data, jsonLoadFails]
  | some (JValue.arr xs) => simp [load_json_data, jsonLoadFails]
  | some (JValue.obj kvs) =>
    rcases hl : loadCategories kvs with _ | cds
    · rw [load_json_data, hl]
      simp only [jsonLoadFails, true_iff, Bool.or_eq_true, List.any_eq_true]
      obtain ⟨pr, hpr, hbad⟩ := (loadCategories_none_iff kvs).mp hl
      rcases hbad with hb | hb
      · exact Or.inl (Or.inl ⟨pr, hpr, by simp [hb]⟩)
      · exact Or.inl (Or.inr ⟨pr, hpr, hb⟩)
    · rw [load_json_data, hl]
      dsimp only
      by_cases he : cds.isEmpty
      · rw [if_pos he]
        simp only [jsonLoadFails, true_iff, Bool.or_eq_true, List.any_eq_true,
          List.all_eq_true]
        right
        intro pr hpr
        exact ((loadCategories_some_nil_iff kvs cds hl).mp (by simpa using he)) pr hpr
      · rw [if_neg he]
        simp only [jsonLoadFails, Bool.or_eq_true, List.any_eq_true, List.all_eq_true]
        constructor
        · intro hc
          exact absurd hc (by simp)
        · intro hc
          rcases hc with (⟨pr, hpr, hna⟩ | ⟨pr, hpr, hfat⟩) | hall
          · have : loadCategories kvs = none :=
              (loadCategories_none_iff kvs).mpr ⟨pr, hpr, Or.inl (by simpa using hna)⟩
            rw [hl] at this
            exact absurd this (by simp)
          · have : loadCategories kvs = none :=
              (loadCategories_none_iff kvs).mpr ⟨pr, hpr, Or.inr hfat⟩
            rw [hl] at this
            exact absurd this (by simp)
          · have : cds = [] := (loadCategories_some_nil_iff kvs cds hl).mpr hall
            exact (he (by simp [this])).elim

/-- C3: every record in a catalog produced by the JSON normalizer has
rarity in the closed range `[1, 3]`; and an out-of-range rarity 5 is
clamped to 3 rather than the item being dropped, as the concrete parse of
`{"c": [{"rarity": 5}]}` shows. -/
theorem json_rarity_clamped :
    (∀ (p : Option JValue) (cd : List (String × List Item)),
      load_json_data p = some cd →
      ∀ pr ∈ cd, ∀ it ∈ pr.2, 1 ≤ it.rarity ∧ it.rarity ≤ 3) ∧
    load_json_data (some (JValue.obj [("c", JValue.arr [JValue.obj [("rarity", JValue.num 5)]])]))
      = some [("c", [⟨"Элемент 1", "", 3, 3⟩])] := by
  constructor
  · intro p cd h pr hpr it hit
    obtain ⟨cat, i, v, hv⟩ := load_json_data_item h pr hpr it hit
    obtain ⟨h1, h2, _⟩ := normalizeItem_keep hv
    exact ⟨h1, h2⟩
  · decide

/-- C3 witness: the rarity-5 item of the concrete catalog above is in
range. -/
theorem json_rarity_clamped_witness :
    1 ≤ (⟨"Элемент 1", "", 3, 3⟩ : Item).rarity ∧
      (⟨"Элемент 1", "", 3, 3⟩ : Item).rarity ≤ 3 :=
  json_rarity_clamped.1
    (some (JValue.obj [("c", JValue.arr [JValue.obj [("rarity", JValue.num 5)]])]))
    [("c", [⟨"Элемент 1", "", 3, 3⟩])] (by decide)
    ("c", [⟨"Элемент 1", "", 3, 3⟩]) (by decide)
    ⟨"Элемент 1", "", 3, 3⟩ (by decide)

/-- C5 counterexample: the item `{"rarity": 1e400}` — valid JSON whose
rarity parses to an infinite float — is an object whose rarity fails
integer coercion, yet it is not skipped with a warning: `int` raises an
`OverflowError` the per-item handler does not catch, so in the parse of
`{"c": [{"rarity": 1e400}, {}]}` the remaining valid item `{}` is never
kept and the whole parse fails, contradicting "never fatal to its
category or to the parse". -/
theorem json_item_fatal_cex :
    normalizeItem "c" 0 (JValue.obj [("rarity", JValue.fnum JFloat.posInf)])
      = ItemResult.fatal ∧
    load_json_data (some (JValue.obj [("c", JValue.arr
        [JValue.obj [("rarity", JValue.fnum JFloat.posInf)], JValue.obj []])])) = none := by
  exact ⟨by decide, by decide⟩

/-- C5 (amended): an item the per-item handler disposes of — one that is
not an object, or whose rarity coercion raises an error the handler
catches (`ValueError`/`TypeError`) — is skipped and the remaining items
of the category are still processed at their original indices; but an
item whose rarity coercion raises an uncaught `OverflowError` (an
infinite float rarity) is fatal to its category and to the whole parse. -/
theorem json_item_skip_nonfatal :
    (∀ (cat : String) (pre : List JValue) (v : JValue) (post : List JValue),
      normalizeItem cat pre.length v = ItemResult.skip →
      validItems cat (pre ++ v :: post) =
        (validItems cat pre).bind
          (fun a => (validItemsAux cat (pre.length + 1) post).map (fun b => a ++ b))) ∧
    (∀ (cat : String) (i : Nat) (v : JValue),
      normalizeItem cat i v = ItemResult.skip ↔
        ((∀ kvs, v ≠ JValue.obj kvs) ∨
          ∃ kvs, v = JValue.obj kvs ∧
            pyInt ((kvs.lookup "rarity").getD (JValue.num 3)) = PyIntResult.caught)) ∧
    (∀ (cat : String) (i : Nat) (v : JValue),
      normalizeItem cat i v = ItemResult.fatal ↔
        ∃ kvs, v = JValue.obj kvs ∧
          pyInt ((kvs.lookup "rarity").getD (JValue.num 3)) = PyIntResult.uncaught) ∧
    (∀ (cat : String) (pre : List JValue) (v : JValue) (post : List JValue),
      normalizeItem cat pre.length v = ItemResult.fatal →
      validItems cat (pre ++ v :: post) = none) ∧
    (∀ (kvs : List (String × JValue)) (cat : String) (items : List JValue),
      (cat, JValue.arr items) ∈ kvs → validItems cat items = none →
      load_json_data (some (JValue.obj kvs)) = none) := by
  refine ⟨?_, ?_, ?_, ?_, ?_⟩
  · intro cat pre v post h
    have := validItemsAux_append cat pre 0 v post (by simpa using h)
    simpa [validItems] using this
  · intro cat i v
    cases v with
    | obj kvs =>
      rcases hp : pyInt ((kvs.lookup "rarity").getD (JValue.num 3)) with r | _ | _
      · simp only [normalizeItem, hp]
        refine iff_of_false (by simp) ?_
        rintro (hL | ⟨kvs2, he, hp2⟩)
        · exact hL kvs rfl
        · rw [JValue.obj.injEq] at he
          subst he
          rw [hp] at hp2
          exact absurd hp2 (by simp)
      · simp only [normalizeItem, hp]
        exact iff_of_true trivial (Or.inr ⟨kvs, rfl, hp⟩)
      · simp only [normalizeItem, hp]
        refine iff_of_false (by simp) ?_
        rintro (hL | ⟨kvs2, he, hp2⟩)
        · exact hL kvs rfl
        · rw [JValue.obj.injEq] at he
          subst he
          rw [hp] at hp2
          exact absurd hp2 (by simp)
    | null => exact iff_of_true rfl (Or.inl fun kvs2 he => JValue.noConfusion he)
    | bool b => exact iff_of_true rfl (Or.inl fun kvs2 he => JValue.noConfusion he)
    | num n => exact iff_of_true rfl (Or.inl fun kvs2 he => JValue.noConfusion he)
    | fnum f => exact iff_of_true rfl (Or.inl fun kvs2 he => JValue.noConfusion he)
    | str s => exact iff_of_true rfl (Or.inl fun kvs2 he => JValue.noConfusion he)
    | arr xs => exact iff_of_true rfl (Or.inl fun kvs2 he => JValue.noConfusion he)
  · intro cat i v
    cases v with
    | obj kvs =>
      rcases hp : pyInt ((kvs.lookup "rarity").getD (JValue.num 3)) with r | _ | _
      · simp only [normalizeItem, hp]
        refine iff_of_false (by simp) ?_
        rintro ⟨kvs2, he, hp2⟩
        rw [JValue.obj.injEq] at he
        subst he
        rw [hp] at hp2
        exact absurd hp2 (by simp)
      · simp only [normalizeItem, hp]
        refine iff_of_false (by simp) ?_
        rintro ⟨kvs2, he, hp2⟩
        rw [JValue.obj.injEq] at he
        subst he
        rw [hp] at hp2
        exact absurd hp2 (by simp)
      · simp only [normalizeItem, hp]
        exact iff_of_true trivial ⟨kvs, rfl, hp⟩
    | null =>
      refine iff_of_false (by simp [normalizeItem]) ?_
      rintro ⟨kvs2, he, _⟩
      exact JValue.noConfusion he
    | bool b =>
      refine iff_of_false (by simp [normalizeItem]) ?_
      rintro ⟨kvs2, he, _⟩
      exact JValue.noConfusion he
    | num n =>
      refine iff_of_false (by simp [normalizeItem]) ?_
      rintro ⟨kvs2, he, _⟩
      exact JValue.noConfusion he
    | fnum f =>
      refine iff_of_false (by simp [normalizeItem]) ?_
      rintro ⟨kvs2, he, _⟩
      exact JValue.noConfusion he
    | str s =>
      refine iff_of_false (by simp [normalizeItem]) ?_
      rintro ⟨kvs2, he, _⟩
      exact JValue.noConfusion he
    | arr xs =>
      refine iff_of_false (by simp [normalizeItem]) ?_
      rintro ⟨kvs2, he, _⟩
      exact JValue.noConfusion he
  · intro cat pre v post h
    have := validItemsAux_fatal cat pre 0 v post (by simpa using h)
    simpa [validItems] using this
  · intro kvs cat items hmem hfat
    rw [load_json_data, loadCategories_fatal kvs cat items hmem hfat]

/-- C5 witness: in the list `[{"rarity": 1}, 7, {}]` of category `"c"`,
the non-object item `7` at index 1 is skipped and the final item is still
processed. -/
theorem json_item_skip_nonfatal_witness :
    validItems "c" ([JValue.obj [("rarity", JValue.num 1)]] ++ JValue.num 7 :: [JValue.obj []]) =
      (validItems "c" [JValue.obj [("rarity", JValue.num 1)]]).bind
        (fun a => (validItemsAux "c" ([JValue.obj [("rarity", JValue.num 1)]].length + 1)
            [JValue.obj []]).map (fun b => a ++ b)) :=
  json_item_skip_nonfatal.1 "c" [JValue.obj [("rarity", JValue.num 1)]] (JValue.num 7)
    [JValue.obj []] rfl

/-- C7 counterexample: parsing `{"c": [{}]}`, the item at zero-based
index 0 has no name field and its record's name is the Russian string
`"Элемент 1"` (source line 59), not `"Item 1"` as the claim states. -/
theorem json_default_name_cex :
    load_json_data (some (JValue.obj [("c", JValue.arr [JValue.obj []])]))
      = some [("c", [⟨"Элемент 1", "", 3, 3⟩])] ∧
    ("Элемент 1" : String) ≠ "Item 1" := by
  exact ⟨by decide, by decide⟩

/-- C7 (amended): in the JSON normalizer, for an item object at zero-based
index `i` that is kept, an absent name field makes the record's name
default to `"Элемент {i+1}"` (the word `Элемент` followed by a space and
`i+1`), and an absent image field makes the record's image default to the
empty string. -/
theorem json_item_defaults :
    ∀ (cat : String) (i : Nat) (kvs : List (String × JValue)) (it : Item),
      normalizeItem cat i (JValue.obj kvs) = ItemResult.keep it →
      (kvs.lookup "name" = none → it.name = "Элемент " ++ toString (i + 1)) ∧
      (kvs.lookup "image" = none → it.image = "") := by
  intro cat i kvs it h
  simp only [normalizeItem] at h
  split at h
  · rw [ItemResult.keep.injEq] at h
    subst h
    constructor
    · intro hn
      simp [hn, pyStr]
    · intro hi
      simp [hi, pyStr]
  · exact absurd h (by simp)
  · exact absurd h (by simp)

/-- C7 witness: the defaults at index 0 with no name and no image field. -/
theorem json_item_defaults_witness :
    (⟨"Элемент 1", "", 3, 3⟩ : Item).name = "Элемент " ++ toString (0 + 1) ∧
      (⟨"Элемент 1", "", 3, 3⟩ : Item).image = "" :=
  ⟨(json_item_defaults "c" 0 [] ⟨"Элемент 1", "", 3, 3⟩ (by decide)).1 rfl,
   (json_item_defaults "c" 0 [] ⟨"Элемент 1", "", 3, 3⟩ (by decide)).2 rfl⟩

/-- C10: an item object with no rarity field is not dropped — its rarity
defaults to 3 (and so does its weight), the name and image fields being
normalized as usual. -/
theorem json_default_rarity :
    ∀ (cat : String) (i : Nat) (kvs : List (String × JValue)),
      kvs.lookup "rarity" = none →
      normalizeItem cat i (JValue.obj kvs) =
        ItemResult.keep
          ⟨pyStr ((kvs.lookup "name").getD (JValue.str ("Элемент " ++ toString (i + 1)))),
           pyStr ((kvs.lookup "image").getD (JValue.str "")), 3, 3⟩ := by
  intro cat i kvs h
  simp [normalizeItem, h, pyInt]

/-- C10 witness: the empty item object `{}` at index 0 yields the record
`⟨"Элемент 1", "", 3, 3⟩`. -/
theorem json_default_rarity_witness :
    normalizeItem "c" 0 (JValue.obj []) =
      ItemResult.keep
        ⟨pyStr ((([] : List (String × JValue)).lookup "name").getD
            (JValue.str ("Элемент " ++ toString (0 + 1)))),
         pyStr ((([] : List (String × JValue)).lookup "image").getD (JValue.str "")), 3, 3⟩ :=
  json_default_rarity "c" 0 [] rfl

/-! ## Facts about the weighted-choice primitive -/

lemma getD_cons_zero_eq {α : Type} (x : α) (l : List α) (d : α) : (x :: l).getD 0 d = x := rfl

lemma getD_cons_succ_eq {α : Type} (x : α) (l : List α) (n : Nat) (d : α) :
    (x :: l).getD (n + 1) d = l.getD n d := rfl

lemma getD_append_cons {α : Type} :
    ∀ (pre : List α) (x : α) (post : List α) (d : α),
      (pre ++ x :: post).getD pre.length d = x := by
  intro pre
  induction pre with
  | nil => intro x post d; rfl
  | cons u pre ih => intro x post d; exact ih x post d

lemma pickIdx_lt :
    ∀ (ws : List Int) (r : Int), (∀ w ∈ ws, 0 < w) → 0 ≤ r → r < ws.sum →
      pickIdx ws r < ws.length := by
  intro ws
  induction ws with
  | nil =>
    intro r _ h0 hr
    rw [List.sum_nil] at hr
    omega
  | cons w ws ih =>
    intro r hw h0 hr
    rw [pickIdx]
    by_cases hc : r < w
    · rw [if_pos hc]
      simp
    · rw [if_neg hc]
      rw [List.length_cons, Nat.add_lt_add_iff_right]
      rw [List.sum_cons] at hr
      exact ih (r - w) (fun x hx => hw x (List.mem_cons_of_mem _ hx)) (by omega) (by omega)

lemma weightsOf_sum_pos {items : List Item} (hne : items ≠ [])
    (hw : ∀ it ∈ items, 0 < it.weight) : 0 < (weightsOf items).sum := by
  apply List.sum_pos
  · intro x hx
    obtain ⟨it, hit, hx2⟩ := List.mem_map.mp hx
    exact hx2 ▸ hw it hit
  · simp [weightsOf, hne]

lemma choicesPy_some_of_pos (items : List Item) (k : Nat) (rand : Nat → Nat) (pos : Nat)
    (hne : items ≠ []) (hw : ∀ it ∈ items, 0 < it.weight) :
    ∃ sel, choicesPy (List.range items.length) (weightsOf items) k rand pos = some sel ∧
      sel.length = k := by
  have hlen : (weightsOf items).length = items.length := by simp [weightsOf]
  have htot : 0 < (weightsOf items).sum := weightsOf_sum_pos hne hw
  have hwpos : ∀ w ∈ weightsOf items, 0 < w := by
    intro x hx
    obtain ⟨it, hit, hx2⟩ := List.mem_map.mp hx
    exact hx2 ▸ hw it hit
  have hbound : ∀ j : Nat,
      pickIdx (weightsOf items) ((rand (pos + j) : Int) % (weightsOf items).sum)
        < items.length := by
    intro j
    rw [← hlen]
    apply pickIdx_lt _ _ hwpos
    · exact Int.emod_nonneg _ (by omega)
    · exact Int.emod_lt_of_pos _ htot
  rw [choicesPy]
  rw [if_neg (by simp [hlen])]
  rw [if_neg (by simp [List.isEmpty_iff, List.range_eq_nil, hne])]
  dsimp only
  rw [if_neg (by omega)]
  rw [if_neg ?hany]
  case hany =>
    simp only [List.any_eq_true, List.mem_map, List.length_range, not_exists, not_and]
    intro i hi
    obtain ⟨j, _, hj⟩ := hi
    simp only [decide_eq_true_eq]
    rw [← hj]
    exact Nat.not_le.mpr (hbound j)
  refine ⟨_, rfl, by simp⟩

lemma genGo_spec (rand : Nat → Nat) (cc : List (String × Int)) :
    ∀ (cd : List (String × List Item)) (pos : Nat),
      (∀ pr ∈ cd, ∀ it ∈ pr.2, 0 < it.weight) →
      ∃ res, genGo rand cc cd pos = some res ∧
        res.map Prod.fst = cd.map Prod.fst ∧
        res.length = cd.length ∧
        ∀ i, i < cd.length →
          (res.getD i ("", [])).2.length =
            (if 0 < countsGet cc (cd.getD i ("", [])).1 ∧ (cd.getD i ("", [])).2 ≠ []
             then (countsGet cc (cd.getD i ("", [])).1).toNat else 0) := by
  intro cd
  induction cd with
  | nil =>
    intro pos _
    exact ⟨[], rfl, rfl, rfl, by intro i hi; exact absurd hi (by simp)⟩
  | cons pr rest ih =>
    intro pos h
    have hw0 : ∀ it ∈ pr.2, 0 < it.weight := h pr (List.mem_cons_self _ _)
    have hrest : ∀ pr2 ∈ rest, ∀ it ∈ pr2.2, 0 < it.weight :=
      fun pr2 h2 => h pr2 (List.mem_cons_of_mem _ h2)
    by_cases hcond : countsGet cc pr.1 ≤ 0 ∨ pr.2.isEmpty
    · obtain ⟨res, hres, hmap, hlen, hidx⟩ := ih pos hrest
      refine ⟨(pr.1, []) :: res, ?_, ?_, ?_, ?_⟩
      · rw [genGo, if_pos hcond, hres]
        rfl
      · simp [hmap]
      · simp [hlen]
      · intro i hi
        match i with
        | 0 =>
          rw [getD_cons_zero_eq, getD_cons_zero_eq]
          rw [if_neg]
          · rfl
          · intro ⟨h1, h2⟩
            rcases hcond with hc | hc
            · omega
            · exact h2 (List.isEmpty_iff.mp hc)
        | i + 1 =>
          rw [getD_cons_succ_eq, getD_cons_succ_eq]
          exact hidx i (by simpa using hi)
    · have hne : pr.2 ≠ [] := by
        intro he
        exact hcond (Or.inr (by simp [he]))
      have hpos : 0 < countsGet cc pr.1 := by omega
      obtain ⟨sel, hsel, hsellen⟩ :=
        choicesPy_some_of_pos pr.2 (countsGet cc pr.1).toNat rand pos hne hw0
      obtain ⟨res, hres, hmap, hlen, hidx⟩ := ih (pos + (countsGet cc pr.1).toNat) hrest
      refine ⟨(pr.1, sel.map fun idx => displayOf (pr.2.getD idx dItem)) :: res, ?_, ?_, ?_, ?_⟩
      · rw [genGo, if_neg hcond]
        dsimp only
        rw [hsel]
        dsimp only
        rw [hres]
        rfl
      · simp [hmap]
      · simp [hlen]
      · intro i hi
        match i with
        | 0 =>
          rw [getD_cons_zero_eq, getD_cons_zero_eq]
          rw [if_pos ⟨hpos, hne⟩]
          simp [hsellen]
        | i + 1 =>
          rw [getD_cons_succ_eq, getD_cons_succ_eq]
          exact hidx i (by simpa using hi)

lemma generate_eq_of_genGo {cd : List (String × List Item)} {cc : List (String × Int)}
    {rand : Nat → Nat} {res : List (String × List DisplayItem)}
    (h : genGo rand cc cd 0 = some res) :
    generate_category_drops cd cc rand = res := by
  cases cd with
  | nil =>
    rw [genGo] at h
    rw [Option.some_inj] at h
    subst h
    rfl
  | cons pr rest =>
    rw [generate_category_drops, if_neg (by simp), h]

lemma genGo_keys (rand : Nat → Nat) (cc : List (String × Int)) :
    ∀ (cd : List (String × List Item)) (pos : Nat) (res : List (String × List DisplayItem)),
      genGo rand cc cd pos = some res →
      res.map Prod.fst = cd.map Prod.fst ∧
      ∀ i, i < cd.length →
        (countsGet cc (cd.getD i ("", [])).1 ≤ 0 ∨ (cd.getD i ("", [])).2 = []) →
        res.getD i ("", []) = ((cd.getD i ("", [])).1, ([] : List DisplayItem)) := by
  intro cd
  induction cd with
  | nil =>
    intro pos res h
    rw [genGo, Option.some_inj] at h
    subst h
    exact ⟨rfl, by intro i hi; exact absurd hi (by simp)⟩
  | cons pr rest ih =>
    intro pos res h
    by_cases hcond : countsGet cc pr.1 ≤ 0 ∨ pr.2.isEmpty
    · rw [genGo, if_pos hcond] at h
      obtain ⟨res2, hres2, hcons⟩ := Option.map_eq_some'.mp h
      obtain ⟨hmap, hidx⟩ := ih pos res2 hres2
      subst hcons
      refine ⟨by simp [hmap], ?_⟩
      intro i hi hc
      match i with
      | 0 => rw [getD_cons_zero_eq, getD_cons_zero_eq]
      | i + 1 =>
        rw [getD_cons_succ_eq, getD_cons_succ_eq]
        rw [getD_cons_succ_eq] at hc
        exact hidx i (by simpa using hi) hc
    · rw [genGo, if_neg hcond] at h
      dsimp only at h
      rcases hsel : choicesPy (List.range pr.2.length) (weightsOf pr.2)
          (countsGet cc pr.1).toNat rand pos with _ | sel
      · rw [hsel] at h
        exact absurd h (by simp)
      · rw [hsel] at h
        dsimp only at h
        obtain ⟨res2, hres2, hcons⟩ :=
          Option.map_eq_some'.mp h
        obtain ⟨hmap, hidx⟩ := ih (pos + (countsGet cc pr.1).toNat) res2 hres2
        subst hcons
        refine ⟨by simp [hmap], ?_⟩
        intro i hi hc
        match i with
        | 0 =>
          rw [getD_cons_zero_eq] at hc
          exfalso
          rcases hc with hc | hc
          · exact hcond (Or.inl hc)
          · exact hcond (Or.inr (by simp [hc]))
        | i + 1 =>
          rw [getD_cons_succ_eq, getD_cons_succ_eq]
          rw [getD_cons_succ_eq] at hc
          exact hidx i (by simpa using hi) hc

/-! ## Claim theorems about the weighted drop generator -/

/-- C1: for a catalog whose records carry positive sampling weights (as
every normalizer-produced record does), the drop generator returns one
entry per category, and the drawn sequence of the category at position
`i` has length exactly the requested count when the pool is non-empty and
the count positive, and length 0 — the empty sequence, not an error —
when the requested count is non-positive or the pool is empty. -/
theorem drops_length (cd : List (String × List Item)) (cc : List (String × Int))
    (rand : Nat → Nat) (hw : ∀ pr ∈ cd, ∀ it ∈ pr.2, 0 < it.weight) :
    (generate_category_drops cd cc rand).length = cd.length ∧
    ∀ i, i < cd.length →
      ((generate_category_drops cd cc rand).getD i ("", [])).2.length =
        (if 0 < countsGet cc (cd.getD i ("", [])).1 ∧ (cd.getD i ("", [])).2 ≠ []
         then (countsGet cc (cd.getD i ("", [])).1).toNat else 0) := by
  obtain ⟨res, hres, _, hlen, hidx⟩ := genGo_spec rand cc cd 0 hw
  rw [generate_eq_of_genGo hres]
  exact ⟨hlen, hidx⟩

/-- C1 witness: a two-category catalog where `"Фрукты"` requests 5 drops
and gets exactly 5, and `"Овощи"` has an empty pool and gets the empty
sequence. -/
theorem drops_length_witness :
    (generate_category_drops
        [("Фрукты", [⟨"Яблоко", "", 3, 3⟩, ⟨"Дуриан", "", 1, 1⟩]), ("Овощи", [])]
        [("Фрукты", 5)] (fun n => n)).length =
      [("Фрукты", [(⟨"Яблоко", "", 3, 3⟩ : Item), ⟨"Дуриан", "", 1, 1⟩]), ("Овощи", [])].length ∧
    ∀ i, i < [("Фрукты", [(⟨"Яблоко", "", 3, 3⟩ : Item), ⟨"Дуриан", "", 1, 1⟩]),
        ("Овощи", [])].length →
      ((generate_category_drops
          [("Фрукты", [⟨"Яблоко", "", 3, 3⟩, ⟨"Дуриан", "", 1, 1⟩]), ("Овощи", [])]
          [("Фрукты", 5)] (fun n => n)).getD i ("", [])).2.length =
        (if 0 < countsGet [("Фрукты", 5)]
              (([("Фрукты", [(⟨"Яблоко", "", 3, 3⟩ : Item), ⟨"Дуриан", "", 1, 1⟩]),
                ("Овощи", [])].getD i ("", [])).1) ∧
            ([("Фрукты", [(⟨"Яблоко", "", 3, 3⟩ : Item), ⟨"Дуриан", "", 1, 1⟩]),
              ("Овощи", [])].getD i ("", [])).2 ≠ []
         then (countsGet [("Фрукты", 5)]
              (([("Фрукты", [(⟨"Яблоко", "", 3, 3⟩ : Item), ⟨"Дуриан", "", 1, 1⟩]),
                ("Овощи", [])].getD i ("", [])).1)).toNat
         else 0) :=
  drops_length
    [("Фрукты", [⟨"Яблоко", "", 3, 3⟩, ⟨"Дуриан", "", 1, 1⟩]), ("Овощи", [])]
    [("Фрукты", 5)] (fun n => n) (by decide)

/-- C8: when an exception escapes the sampling loop (the `none` outcome of
the embedded loop body, e.g. a non-positive total weight inside
`random.choices`), `generate_category_drops` catches it and returns the
empty mapping instead of propagating the error. -/
theorem drops_error_empty (cd : List (String × List Item)) (cc : List (String × Int))
    (rand : Nat → Nat) (h : genGo rand cc cd 0 = none) :
    generate_category_drops cd cc rand = [] := by
  cases cd with
  | nil =>
    rw [genGo] at h
    exact absurd h (by simp)
  | cons pr rest =>
    rw [generate_category_drops, if_neg (by simp), h]

/-- C8 witness: a record with weight 0 makes `random.choices` raise
(total weight not positive); the generator returns the empty mapping. -/
theorem drops_error_empty_witness :
    generate_category_drops [("a", [⟨"x", "", 0, 0⟩])] [("a", 1)] (fun _ => 0) = [] :=
  drops_error_empty [("a", [⟨"x", "", 0, 0⟩])] [("a", 1)] (fun _ => 0) (by decide)

/-- C9: on the non-error path, the result of `generate_category_drops`
has exactly the catalog's keys in order; a category's lookup missing from
the count mapping yields count 0; and a category with non-positive count
or empty pool is mapped to the empty list rather than omitted. -/
theorem drops_keys (cd : List (String × List Item)) (cc : List (String × Int))
    (rand : Nat → Nat) (res : List (String × List DisplayItem))
    (h : genGo rand cc cd 0 = some res) :
    (generate_category_drops cd cc rand).map Prod.fst = cd.map Prod.fst ∧
    (∀ cat, cc.lookup cat = none → countsGet cc cat = 0) ∧
    ∀ i, i < cd.length →
      (countsGet cc (cd.getD i ("", [])).1 ≤ 0 ∨ (cd.getD i ("", [])).2 = []) →
      (generate_category_drops cd cc rand).getD i ("", []) =
        ((cd.getD i ("", [])).1, ([] : List DisplayItem)) := by
  obtain ⟨hmap, hidx⟩ := genGo_keys rand cc cd 0 res h
  rw [generate_eq_of_genGo h]
  exact ⟨hmap, fun cat hcat => by simp [countsGet, hcat], hidx⟩

/-- C9 witness: category `"b"` is missing from the count mapping and
empty, yet present in the result, mapped to the empty list. -/
theorem drops_keys_witness :
    (generate_category_drops [("a", [⟨"x", "", 3, 3⟩]), ("b", [])] [("a", 2)]
        (fun _ => 0)).map Prod.fst =
      [("a", [(⟨"x", "", 3, 3⟩ : Item)]), ("b", [])].map Prod.fst ∧
    (∀ cat, ([("a", 2)] : List (String × Int)).lookup cat = none →
      countsGet [("a", 2)] cat = 0) ∧
    ∀ i, i < [("a", [(⟨"x", "", 3, 3⟩ : Item)]), ("b", [])].length →
      (countsGet [("a", 2)] (([("a", [(⟨"x", "", 3, 3⟩ : Item)]), ("b", [])].getD
          i ("", [])).1) ≤ 0 ∨
        ([("a", [(⟨"x", "", 3, 3⟩ : Item)]), ("b", [])].getD i ("", [])).2 = []) →
      (generate_category_drops [("a", [⟨"x", "", 3, 3⟩]), ("b", [])] [("a", 2)]
          (fun _ => 0)).getD i ("", []) =
        (([("a", [(⟨"x", "", 3, 3⟩ : Item)]), ("b", [])].getD i ("", [])).1,
          ([] : List DisplayItem)) :=
  drops_keys [("a", [⟨"x", "", 3, 3⟩]), ("b", [])] [("a", 2)] (fun _ => 0)
    [("a", [⟨"x", "", 3⟩, ⟨"x", "", 3⟩]), ("b", [])] (by decide)

lemma genGoSt_eq (rand : Nat → Nat) (cc : List (String × Int)) :
    ∀ (cd pre : List (String × List Item)) (pos : Nat),
      genGoSt rand cc cd.length pre.length pos (pre ++ cd) =
        (genGo rand cc cd pos, pre ++ cd) := by
  intro cd
  induction cd with
  | nil =>
    intro pre pos
    rw [List.length_nil, List.append_nil, genGoSt, genGo]
  | cons pr rest ih =>
    intro pre pos
    have e1 : pre.length + 1 = (pre ++ [pr]).length := by simp
    have e2 : pre ++ pr :: rest = (pre ++ [pr]) ++ rest := by simp
    simp only [List.length_cons, genGoSt, genGo, getD_append_cons]
    by_cases hcond : countsGet cc pr.1 ≤ 0 ∨ pr.2.isEmpty
    · rw [if_pos hcond, if_pos hcond]
      rw [show genGoSt rand cc rest.length (pre.length + 1) pos (pre ++ pr :: rest)
            = genGoSt rand cc rest.length ((pre ++ [pr]).length) pos ((pre ++ [pr]) ++ rest) by
          rw [← e1, ← e2]]
      rw [ih (pre ++ [pr]) pos]
      rw [← e2]
    · rw [if_neg hcond, if_neg hcond]
      rcases hch : choicesPy (List.range pr.2.length) (weightsOf pr.2)
          (countsGet cc pr.1).toNat rand pos with _ | sel
      · rfl
      · dsimp only
        rw [show genGoSt rand cc rest.length (pre.length + 1)
              (pos + (countsGet cc pr.1).toNat) (pre ++ pr :: rest)
              = genGoSt rand cc rest.length ((pre ++ [pr]).length)
                (pos + (countsGet cc pr.1).toNat) ((pre ++ [pr]) ++ rest) by
            rw [← e1, ← e2]]
        rw [ih (pre ++ [pr]) (pos + (countsGet cc pr.1).toNat)]
        rw [← e2]

/-- C6: the drop generator is pure with respect to the catalog. In the
state-passing embedding, in which every access of the loop reads the
catalog store and the final store is returned, the store after the call
equals the store before it — every record's name, image, rarity and
stored weight is unchanged — and the returned drops are exactly those of
the pure function. -/
theorem drops_frame (store : List (String × List Item)) (cc : List (String × Int))
    (rand : Nat → Nat) :
    generate_category_drops_st cc rand store = (generate_category_drops store cc rand, store) := by
  cases store with
  | nil => rfl
  | cons pr rest =>
    have h := genGoSt_eq rand cc (pr :: rest) [] 0
    simp only [List.nil_append, List.length_nil] at h
    rw [generate_category_drops_st, generate_category_drops, if_neg (by simp), if_neg (by simp)]
    rw [h]
    rcases genGo rand cc (pr :: rest) 0 with _ | res <;> rfl

lemma pickIdx_count :
    ∀ (ws : List Int), (∀ w ∈ ws, 0 < w) → ∀ i, i < ws.length →
      ((Finset.range ws.sum.toNat).filter fun r : Nat => pickIdx ws (r : Int) = i).card
        = (ws.getD i 0).toNat := by
  intro ws
  induction ws with
  | nil => intro _ i hi; exact absurd hi (by simp)
  | cons w ws ih =>
    intro hw i hi
    have hw0 : 0 < w := hw w (List.mem_cons_self _ _)
    have hws : ∀ x ∈ ws, 0 < x := fun x hx => hw x (List.mem_cons_of_mem _ hx)
    have hsum : 0 ≤ ws.sum := List.sum_nonneg (fun x hx => le_of_lt (hws x hx))
    have htot : ((w :: ws).sum).toNat = w.toNat + ws.sum.toNat := by
      rw [List.sum_cons]; omega
    match i with
    | 0 =>
      rw [getD_cons_zero_eq]
      have hpred : ∀ r ∈ Finset.range ((w :: ws).sum).toNat,
          (pickIdx (w :: ws) (r : Int) = 0) ↔ (r < w.toNat) := by
        intro r _
        rw [pickIdx]
        by_cases hc : (r : Int) < w
        · rw [if_pos hc]; simp; omega
        · rw [if_neg hc]; simp; omega
      rw [Finset.filter_congr hpred]
      rw [htot]
      rw [show (Finset.range (w.toNat + ws.sum.toNat)).filter (fun r : Nat => r < w.toNat)
            = Finset.range w.toNat by
          ext r
          simp only [Finset.mem_filter, Finset.mem_range]
          omega]
      rw [Finset.card_range]
    | i + 1 =>
      rw [getD_cons_succ_eq]
      have hi2 : i < ws.length := by simpa using hi
      rw [← ih hws i hi2]
      have hmem1 : ∀ a : Nat, a ∈ (Finset.range ((w :: ws).sum).toNat).filter
          (fun r : Nat => pickIdx (w :: ws) (r : Int) = i + 1) →
          w.toNat ≤ a ∧ a - w.toNat ∈ (Finset.range ws.sum.toNat).filter
            (fun r : Nat => pickIdx ws (r : Int) = i) := by
        intro a ha
        rw [Finset.mem_filter, Finset.mem_range, htot] at ha
        obtain ⟨haN, hap⟩ := ha
        rw [pickIdx] at hap
        by_cases hc : (a : Int) < w
        · rw [if_pos hc] at hap
          exact absurd hap (by omega)
        · rw [if_neg hc] at hap
          have hwa : w.toNat ≤ a := by omega
          refine ⟨hwa, ?_⟩
          rw [Finset.mem_filter, Finset.mem_range]
          have hc2 : ((a - w.toNat : Nat) : Int) = (a : Int) - w := by omega
          refine ⟨by omega, ?_⟩
          rw [hc2]
          omega
      have hmem2 : ∀ b : Nat, b ∈ (Finset.range ws.sum.toNat).filter
          (fun r : Nat => pickIdx ws (r : Int) = i) →
          b + w.toNat ∈ (Finset.range ((w :: ws).sum).toNat).filter
            (fun r : Nat => pickIdx (w :: ws) (r : Int) = i + 1) := by
        intro b hb
        rw [Finset.mem_filter, Finset.mem_range] at hb
        obtain ⟨hbN, hbp⟩ := hb
        rw [Finset.mem_filter, Finset.mem_range, htot]
        refine ⟨by omega, ?_⟩
        rw [pickIdx]
        rw [if_neg (by omega)]
        have hc2 : ((b + w.toNat : Nat) : Int) - w = (b : Int) := by omega
        rw [hc2, hbp]
      apply Finset.card_bij' (fun a _ => a - w.toNat) (fun b _ => b + w.toNat)
      · intro a ha
        exact (hmem1 a ha).2
      · intro b hb
        exact hmem2 b hb
      · intro a ha
        have := (hmem1 a ha).1
        omega
      · intro b _
        omega

/-- C4: for every catalog the JSON normalizer produces, the weight list
handed to the weighted-choice primitive equals the records' rarity list —
the rarity number is itself the sampling weight; and the weighted pick
selects index `i` for exactly `weight i` of the equally likely draw
values, so records with higher rarity numbers are drawn proportionally
more frequently. -/
theorem rarity_is_weight :
    (∀ (p : Option JValue) (cd : List (String × List Item)),
      load_json_data p = some cd →
      ∀ pr ∈ cd, weightsOf pr.2 = pr.2.map (fun it => it.rarity)) ∧
    (∀ (ws : List Int), (∀ w ∈ ws, 0 < w) → ∀ i, i < ws.length →
      ((Finset.range ws.sum.toNat).filter fun r : Nat => pickIdx ws (r : Int) = i).card
        = (ws.getD i 0).toNat) := by
  constructor
  · intro p cd h pr hpr
    rw [weightsOf]
    apply List.map_congr_left
    intro it hit
    obtain ⟨cat, i, v, hv⟩ := load_json_data_item h pr hpr it hit
    exact (normalizeItem_keep hv).2.2
  · exact pickIdx_count

/-- C4 witness: in the catalog parsed from
`{"c": [{"name":"Яблоко","rarity":3}, {"name":"Дуриан","rarity":1}]}`,
the weights handed to the choice primitive are the rarities `[3, 1]`, and
with weights `[3, 1]` index 0 is picked for 3 of the 4 draw values. -/
theorem rarity_is_weight_witness :
    weightsOf [(⟨"Яблоко", "", 3, 3⟩ : Item), ⟨"Дуриан", "", 1, 1⟩] =
      [(⟨"Яблоко", "", 3, 3⟩ : Item), ⟨"Дуриан", "", 1, 1⟩].map (fun it => it.rarity) ∧
    ((Finset.range ([3, 1] : List Int).sum.toNat).filter
        fun r : Nat => pickIdx [3, 1] (r : Int) = 0).card =
      (([3, 1] : List Int).getD 0 0).toNat :=
  ⟨rarity_is_weight.1
      (some (JValue.obj [("c", JValue.arr
        [JValue.obj [("name", JValue.str "Яблоко"), ("rarity", JValue.num 3)],
         JValue.obj [("name", JValue.str "Дуриан"), ("rarity", JValue.num 1)]])]))
      [("c", [⟨"Яблоко", "", 3, 3⟩, ⟨"Дуриан", "", 1, 1⟩])] (by decide)
      ("c", [⟨"Яблоко", "", 3, 3⟩, ⟨"Дуриан", "", 1, 1⟩]) (by decide),
   rarity_is_weight.2 [3, 1] (by decide) 0 (by decide)⟩
